import Mathlib

/- Verification development for the static-analysis core of AI-Focus.

The definitions below are shallow embeddings of the TypeScript sources:
  * `src/analyzer/metrics/cyclomatic-complexity.ts` (as concatenated into
    `src/analyzer/metrics/index.ts`) and `src/analyzer/metrics/cognitive-complexity.ts`,
  * `src/rules/rules/metric-threshold-rule.ts` and `src/rules/base-rule.ts`,
  * `src/analyzer/structure/dependency-graph.ts`,
  * the impact analyzer (`calculateImpact`, `calculateAllRiskScores`) and the
    stability metric (`calculateStability`),
  * `Analyzer.analyzeFiles` in `src/analyzer/analyzer.ts` and
    `Orchestrator.runIncremental` in `src/orchestrator/index.ts`.

JavaScript `Map`s and `Record`s are modelled as insertion-ordered association
lists, JS `Set`s as duplicate-free lists in insertion order, JS numbers as `ℚ`
(for metric values) or `Nat`/`Int` (for counters), and mutation as explicit
state passing.  Tree-sitter syntax trees are modelled by the inductive `TSNode`
carrying exactly the attributes the embedded code reads: the `type` tag, the
`operatorType` attribute read on binary expressions, and the child list. -/

namespace AIFocus

/-! ## Shared data model (src/analyzer/types.ts) -/

/-- Severity levels, from `src/analyzer/types.ts`. -/
inductive Severity : Type where
| error
| warning
| info
deriving DecidableEq, Repr

/-- Finding types, from `src/analyzer/types.ts` (`FindingType`). -/
inductive FindingType : Type where
| metric
| ruleViolation
| codeSmell
| architecture
| syntaxError
deriving DecidableEq, Repr

/-- Source locations, from `src/analyzer/types.ts` (`SourceLocation`). -/
structure SourceLocation : Type where
  startLine : Nat
  startColumn : Nat
  endLine : Nat
  endColumn : Nat
deriving DecidableEq, Repr

/-- A value stored in a `FileAnalysisResult.metrics` map.  The TypeScript map is
typed `[key: string]: number | undefined`, but `MetricThresholdRule` still
guards with `typeof metricValue === "number"`, so the model keeps a
constructor for present-but-not-a-number values. -/
inductive MetricVal : Type where
| num (v : ℚ)
| notNum
deriving DecidableEq, Repr

/-- The details bag built by `MetricThresholdRule.evaluateFile`
(`src/rules/rules/metric-threshold-rule.ts`, lines 71-76). -/
structure FindingDetails : Type where
  metricName : String
  value : ℚ
  threshold : ℚ
  filePath : String
deriving DecidableEq, Repr

/-- A finding, from `src/analyzer/types.ts` (`Finding`), restricted to the
fields the embedded rule constructs. -/
structure Finding : Type where
  id : String
  ftype : FindingType
  message : String
  severity : Severity
  location : SourceLocation
  details : FindingDetails
deriving DecidableEq, Repr

/-- A file analysis result, from `src/analyzer/types.ts`
(`FileAnalysisResult`).  `metrics` is the metrics map (JS object lookup is
modelled as a function to `Option`). -/
structure FileAnalysisResult : Type where
  filePath : String
  language : String
  metrics : String → Option MetricVal
  findings : List Finding
  dependencies : List String

/-! ## Syntax-tree model

A tree-sitter node, as read by the metric calculators and structure analyzers:
they access `node.type`, `node.operatorType` (only on binary expressions),
`node.childCount` and `node.child(i)`. -/

/-- Syntax-tree nodes.  `ty` is the `type` tag, `op` the `operatorType`
attribute, `children` the ordered child list. -/
inductive TSNode : Type where
| mk (ty : String) (op : Option String) (children : List TSNode)

/-- The `type` tag of a node. -/
def TSNode.ty : TSNode → String
| .mk t _ _ => t

/-- The `operatorType` attribute of a node. -/
def TSNode.op : TSNode → Option String
| .mk _ o _ => o

/-- The child list of a node. -/
def TSNode.children : TSNode → List TSNode
| .mk _ _ cs => cs

/-! ## Cyclomatic complexity
(`CyclomaticComplexityMetric` in `src/analyzer/metrics/cyclomatic-complexity.ts`) -/

/-- The node test of `CyclomaticComplexityMetric.traverseNode` (lines 56-67):
control-flow structures and short-circuit binary expressions count. -/
def countsCyclomatic (t : String) (op : Option String) : Bool :=
  t == "if_statement" || t == "switch_case" || t == "for_statement" ||
  t == "for_in_statement" || t == "while_statement" || t == "do_statement" ||
  t == "catch_clause" || t == "conditional_expression" ||
  (t == "binary_expression" && (op == some "&&" || op == some "||"))

mutual
/-- `CyclomaticComplexityMetric.traverseNode`: the complexity contributed by a
node and its subtree. -/
def traverseNode : TSNode → Nat
| .mk t op cs => (if countsCyclomatic t op then 1 else 0) + traverseList cs
/-- The loop over `node.child(i)` in `traverseNode`. -/
def traverseList : List TSNode → Nat
| [] => 0
| c :: cs => traverseNode c + traverseList cs
end

/-- `CyclomaticComplexityMetric.calculate` / `calculateCyclomaticComplexity`:
base complexity 1 plus the traversal of the root. -/
def calculateCyclomaticComplexity (rootNode : TSNode) : Nat :=
  1 + traverseNode rootNode

/-- The cyclomatic-complexity field of `extractFunctionInfo`
(`src/analyzer/structure/function-analyzer.ts`, lines 107-109): the metric is
called with the function node itself as root. -/
def functionCyclomaticComplexity (node : TSNode) : Nat :=
  calculateCyclomaticComplexity node

/-- `isFunctionNode` (`src/analyzer/structure/function-analyzer.ts`, lines 64-72). -/
def isFunctionNode (node : TSNode) : Bool :=
  node.ty == "function_declaration" || node.ty == "function_expression" ||
  node.ty == "arrow_function" || node.ty == "method_definition"

/-! Generic subtree counters, used to state hypotheses about tree shapes. -/

mutual
/-- Number of nodes in the subtree satisfying `pred` (on type tag and operator). -/
def countNode (pred : String → Option String → Bool) : TSNode → Nat
| .mk t op cs => (if pred t op then 1 else 0) + countList pred cs
/-- `countNode` summed over a list of subtrees. -/
def countList (pred : String → Option String → Bool) : List TSNode → Nat
| [] => 0
| c :: cs => countNode pred c + countList pred cs
end

/-! ## Cognitive complexity
(`CognitiveComplexityVisitor` in `src/analyzer/metrics/cognitive-complexity.ts`) -/

/-- The visitor state: `complexity` and `nestingLevel` fields of
`CognitiveComplexityVisitor`. -/
structure CCState : Type where
  complexity : Int
  nesting : Int
deriving DecidableEq, Repr

/-- `isIncrementingStructure` (lines 95-107). -/
def isIncrementingStructure (t : String) : Bool :=
  t == "if_statement" || t == "conditional_expression" || t == "switch_statement" ||
  t == "for_statement" || t == "for_in_statement" || t == "for_of_statement" ||
  t == "while_statement" || t == "do_statement" || t == "catch_clause"

/-- `isNestingStructure` (lines 114-129). -/
def isNestingStructure (t : String) : Bool :=
  t == "if_statement" || t == "switch_statement" || t == "for_statement" ||
  t == "for_in_statement" || t == "for_of_statement" || t == "while_statement" ||
  t == "do_statement" || t == "catch_clause" || t == "function_declaration" ||
  t == "function_expression" || t == "arrow_function" || t == "method_definition"

/-- `isControlFlowBreak` (lines 136-143). -/
def isControlFlowBreak (t : String) : Bool :=
  t == "return_statement" || t == "throw_statement" || t == "break_statement" ||
  t == "continue_statement"

/-- `CognitiveComplexityVisitor.processNode` (lines 57-88).  Note that
`decreaseNestingLevelOnChildrenProcessed` (lines 150-155) is a plain
synchronous method whose body is `this.nestingLevel -= 1`, so the source
decrements the nesting level immediately inside `processNode`, before any
child is visited; the two consecutive updates below mirror that. -/
def processNode (t : String) (s : CCState) : CCState :=
  if isIncrementingStructure t then
    let s1 : CCState := { s with complexity := s.complexity + 1 }
    if isNestingStructure t then
      let s2 : CCState := { s1 with nesting := s1.nesting + 1 }
      { s2 with nesting := s2.nesting - 1 }
    else s1
  else if isNestingStructure t ∧ s.nesting > 0 then
    let s1 : CCState := { s with complexity := s.complexity + s.nesting }
    let s2 : CCState := { s1 with nesting := s1.nesting + 1 }
    { s2 with nesting := s2.nesting - 1 }
  else if isControlFlowBreak t then
    { s with complexity := s.complexity + 1 }
  else s

mutual
/-- `CognitiveComplexityVisitor.visit` (lines 41-51): process the node, then
visit all children in order. -/
def visitNode : TSNode → CCState → CCState
| .mk t _ cs, s => visitList cs (processNode t s)
/-- The loop over `node.child(i)` in `visit`. -/
def visitList : List TSNode → CCState → CCState
| [], s => s
| c :: cs, s => visitList cs (visitNode c s)
end

/-- `CognitiveComplexityMetric.calculate` / `calculateCognitiveComplexity`:
run the visitor from a fresh state and read off `complexity`. -/
def calculateCognitiveComplexity (rootNode : TSNode) : Int :=
  (visitNode rootNode ⟨0, 0⟩).complexity

mutual
/-- Modelled from the spec: the cognitive-complexity algorithm as §4.3 of the
spec describes it (the source's `cognitive-complexity.ts` is the corresponding
code).  `nesting` is the number of enclosing nesting structures: +1 for each
increment structure plus its nesting level at entry, +1 for each flow break,
and entering any nesting structure (increment list plus function forms)
increases the level for the children. -/
def specCognitiveNode (nesting : Nat) : TSNode → Nat
| .mk t _ cs =>
    (if isIncrementingStructure t then 1 + nesting
     else if isControlFlowBreak t then 1 else 0) +
    specCognitiveList
      (if isIncrementingStructure t || isNestingStructure t then nesting + 1 else nesting)
      cs
/-- `specCognitiveNode` summed over children. -/
def specCognitiveList (nesting : Nat) : List TSNode → Nat
| [] => 0
| c :: cs => specCognitiveNode nesting c + specCognitiveList nesting cs
end

/-- Modelled from the spec: cognitive complexity of a whole tree per §4.3. -/
def specCognitiveComplexity (rootNode : TSNode) : Nat :=
  specCognitiveNode 0 rootNode

/-! ## MetricThresholdRule
(`src/rules/rules/metric-threshold-rule.ts` and `src/rules/base-rule.ts`) -/

/-- The fields of `RuleConfig` (`src/rules/types.ts`) read by `BaseRule` and
`MetricThresholdRule`.  Fields the code guards with `||` defaults are modelled
as `Option` (absent ↦ `none`). -/
structure RuleConfig : Type where
  id : String
  name : Option String
  enabled : Bool
  severity : Option Severity
  threshold : Option ℚ
  metric : Option String
deriving DecidableEq, Repr

/-- The state of a constructed `MetricThresholdRule`. -/
structure MetricThresholdRule : Type where
  id : String
  name : String
  metricName : String
  threshold : ℚ
  severity : Severity
deriving DecidableEq, Repr

/-- The `MetricThresholdRule` constructor (lines 34-43) together with the
`BaseRule` constructor it calls: `metricName = config.metric || ""`,
`threshold = config.threshold || 0`, `severity = config.severity || "warning"`,
`name = config.name || id`; an empty metric name throws (modelled as `none`).
(`config.threshold || 0` maps both an absent and a zero threshold to `0`,
which `Option.getD 0` reproduces.) -/
def MetricThresholdRule.make (config : RuleConfig) : Option MetricThresholdRule :=
  let metricName := config.metric.getD ""
  if metricName = "" then none
  else some
    { id := config.id
      name := config.name.getD config.id
      metricName := metricName
      threshold := config.threshold.getD 0
      severity := config.severity.getD .warning }

/-- `MetricThresholdRule.evaluateFile` (lines 50-81): look the metric up, and
emit one finding exactly when the value is a number exceeding the threshold. -/
def MetricThresholdRule.evaluateFile (rule : MetricThresholdRule)
    (fileResult : FileAnalysisResult) : List Finding :=
  match fileResult.metrics rule.metricName with
  | some (.num metricValue) =>
      if metricValue > rule.threshold then
        [{ id := rule.id ++ ".exceeded"
           ftype := .ruleViolation
           message := rule.name ++ ": " ++ rule.metricName ++ " (" ++
             toString metricValue ++ ") exceeds threshold (" ++
             toString rule.threshold ++ ")"
           severity := rule.severity
           location := { startLine := 1, startColumn := 1, endLine := 1, endColumn := 1 }
           details := { metricName := rule.metricName
                        value := metricValue
                        threshold := rule.threshold
                        filePath := fileResult.filePath } }]
      else []
  | _ => []

end AIFocus

namespace AIFocus

/-! ## Theorems about the metric calculators and the threshold rule -/

mutual
/-- `traverseNode` counts exactly the nodes satisfying `countsCyclomatic`. -/
theorem traverseNode_eq_count : ∀ n : TSNode, traverseNode n = countNode countsCyclomatic n
| .mk t op cs => by rw [traverseNode, countNode, traverseList_eq_count cs]
/-- List version of `traverseNode_eq_count`. -/
theorem traverseList_eq_count : ∀ l : List TSNode, traverseList l = countList countsCyclomatic l
| [] => by rw [traverseList, countList]
| c :: cs => by rw [traverseList, countList, traverseNode_eq_count c, traverseList_eq_count cs]
end

/-- C7.  A function node whose subtree contains exactly one `if` statement and
one short-circuit `&&` binary expression, and no other constructs counted by
the cyclomatic metric, has cyclomatic complexity 3 (base 1, +1 for the `if`,
+1 for the `&&`). -/
theorem claim_C7_cyclomatic_if_and (n : TSNode)
    (hfun : isFunctionNode n = true)
    (hif : countNode (fun t _ => t == "if_statement") n = 1)
    (hamp : countNode (fun t op => t == "binary_expression" && op == some "&&") n = 1)
    (hcounted : countNode countsCyclomatic n = 2) :
    functionCyclomaticComplexity n = 3 := by
  unfold functionCyclomaticComplexity calculateCyclomaticComplexity
  rw [traverseNode_eq_count, hcounted]

/-- A concrete function tree: `function f(a) { if (x && y) {} }`. -/
def exampleIfAndFunction : TSNode :=
  .mk "function_declaration" none
    [ .mk "identifier" none []
    , .mk "formal_parameters" none [.mk "identifier" none []]
    , .mk "statement_block" none
        [ .mk "if_statement" none
            [ .mk "parenthesized_expression" none
                [.mk "binary_expression" (some "&&")
                   [.mk "identifier" none [], .mk "identifier" none []]]
            , .mk "statement_block" none [] ] ] ]

/-- Witness for C7 at `exampleIfAndFunction`. -/
theorem claim_C7_witness :
    isFunctionNode exampleIfAndFunction = true ∧
    countNode (fun t _ => t == "if_statement") exampleIfAndFunction = 1 ∧
    countNode (fun t op => t == "binary_expression" && op == some "&&") exampleIfAndFunction = 1 ∧
    countNode countsCyclomatic exampleIfAndFunction = 2 ∧
    functionCyclomaticComplexity exampleIfAndFunction = 3 :=
  ⟨by decide, by decide, by decide, by decide,
   claim_C7_cyclomatic_if_and exampleIfAndFunction (by decide) (by decide) (by decide) (by decide)⟩

/-- A module containing an `if` statement directly nested in another `if`
statement: per the claim the inner `if` must receive a nesting bonus. -/
def nestedIfTree : TSNode :=
  .mk "program" none
    [ .mk "if_statement" none
        [ .mk "parenthesized_expression" none []
        , .mk "statement_block" none
            [ .mk "if_statement" none
                [ .mk "parenthesized_expression" none []
                , .mk "statement_block" none [] ] ] ] ]

/-- C6.  The source never applies a nesting bonus: `processNode` calls
`decreaseNestingLevelOnChildrenProcessed` synchronously, decrementing the
nesting level immediately after incrementing it and before any child is
visited, so the level is identically 0.  On an `if` nested inside an `if` the
code computes 2, while the claimed algorithm (nesting bonus equal to the level
at entry for a nested increment structure) computes 3. -/
theorem claim_C6_nesting_never_applied :
    calculateCognitiveComplexity nestedIfTree = 2 ∧
    specCognitiveComplexity nestedIfTree = 3 := by
  constructor
  · decide
  · decide

/-- C8.  A `MetricThresholdRule` built from a config with metric `m`,
threshold `t` and severity `s`, evaluated on a file whose metric `m` is the
number `v`, emits nothing when `v ≤ t` and exactly one finding when `v > t`,
with id `<ruleId>.exceeded`, the configured severity, and details carrying the
metric name, value, threshold, and file path. -/
theorem claim_C8_threshold_rule (config : RuleConfig) (rule : MetricThresholdRule)
    (fr : FileAnalysisResult) (m : String) (v t : ℚ) (s : Severity)
    (hmk : MetricThresholdRule.make config = some rule)
    (hm : config.metric = some m)
    (ht : config.threshold = some t)
    (hs : config.severity = some s)
    (hv : fr.metrics m = some (.num v)) :
    (v ≤ t → rule.evaluateFile fr = []) ∧
    (v > t → ∃ f : Finding, rule.evaluateFile fr = [f] ∧
      f.id = config.id ++ ".exceeded" ∧ f.severity = s ∧
      f.details = ⟨m, v, t, fr.filePath⟩) := by
  unfold MetricThresholdRule.make at hmk
  rw [hm, ht, hs] at hmk
  simp only [Option.getD_some] at hmk
  by_cases hm0 : m = ""
  · simp [hm0] at hmk
  · rw [if_neg hm0] at hmk
    cases hmk
    constructor
    · intro hle
      unfold MetricThresholdRule.evaluateFile
      simp only [hv]
      rw [if_neg (by exact not_lt.mpr hle)]
    · intro hgt
      unfold MetricThresholdRule.evaluateFile
      simp only [hv]
      rw [if_pos hgt]
      exact ⟨_, rfl, rfl, rfl, rfl⟩

/-- The rule configuration of end-to-end scenario 5. -/
def exampleRuleConfig : RuleConfig :=
  { id := "function.complexity", name := none, enabled := true,
    severity := some .warning, threshold := some 10, metric := some "cyclomaticComplexity" }

/-- The rule `MetricThresholdRule.make` builds from `exampleRuleConfig`. -/
def exampleRule : MetricThresholdRule :=
  { id := "function.complexity", name := "function.complexity",
    metricName := "cyclomaticComplexity", threshold := 10, severity := .warning }

/-- A file result with `cyclomaticComplexity = 15`. -/
def exampleFileResult : FileAnalysisResult :=
  { filePath := "/a.ts", language := "typescript",
    metrics := fun k => if k = "cyclomaticComplexity" then some (.num 15) else none,
    findings := [], dependencies := [] }

/-- Witness for C8: scenario 5 of the spec, value 15 against threshold 10. -/
theorem claim_C8_witness :
    (15 : ℚ) > 10 ∧
    ∃ f : Finding, exampleRule.evaluateFile exampleFileResult = [f] ∧
      f.id = "function.complexity" ++ ".exceeded" ∧ f.severity = .warning ∧
      f.details = ⟨"cyclomaticComplexity", 15, 10, "/a.ts"⟩ :=
  ⟨by decide,
   (claim_C8_threshold_rule exampleRuleConfig exampleRule exampleFileResult
      "cyclomaticComplexity" 15 10 .warning (by decide) (by decide) (by decide)
      (by decide) (by decide)).2 (by decide)⟩

/-- C10.  `evaluateFile` is total on missing or non-numeric metrics: when the
configured metric is absent from the metrics map or its value is not a number,
the rule returns the empty findings list. -/
theorem claim_C10_missing_metric_total (rule : MetricThresholdRule)
    (fr : FileAnalysisResult)
    (h : fr.metrics rule.metricName = none ∨ fr.metrics rule.metricName = some .notNum) :
    rule.evaluateFile fr = [] := by
  unfold MetricThresholdRule.evaluateFile
  rcases h with h | h <;> rw [h]

/-- A rule looking up a metric that the file below does not carry. -/
def exampleRuleMissing : MetricThresholdRule :=
  { id := "complexity.cognitive", name := "complexity.cognitive",
    metricName := "cognitiveComplexity", threshold := 15, severity := .warning }

/-- A file result with an empty metrics map. -/
def exampleFileNoMetrics : FileAnalysisResult :=
  { filePath := "/b.ts", language := "typescript",
    metrics := fun _ => none, findings := [], dependencies := [] }

/-- Witness for C10 at a file with no metrics at all. -/
theorem claim_C10_witness :
    exampleFileNoMetrics.metrics exampleRuleMissing.metricName = none ∧
    exampleRuleMissing.evaluateFile exampleFileNoMetrics = [] :=
  ⟨by decide, claim_C10_missing_metric_total exampleRuleMissing exampleFileNoMetrics
    (Or.inl (by decide))⟩

end AIFocus

namespace AIFocus

/-! ## Path utilities

`resolveDependencies` uses Node's `path` module (`path.dirname`,
`path.resolve`, `path.extname`).  These are modelled below for POSIX paths;
the analyzer always works with absolute file paths (`analyzeProject` and
`analyzeFiles` resolve every path before use), so `pathResolve` assumes an
absolute base. -/

/-- Split a character list at a separator character. -/
def splitCharsAux (sep : Char) : List Char → List Char → List String
| [], acc => [String.mk acc.reverse]
| c :: rest, acc =>
    if c = sep then String.mk acc.reverse :: splitCharsAux sep rest []
    else splitCharsAux sep rest (c :: acc)

/-- Split a string on `/`, like `p.split(path.sep)`. -/
def splitPath (p : String) : List String := splitCharsAux '/' p.toList []

/-- Join strings with a separator (`Array.prototype.join`). -/
def joinWith (sep : String) : List String → String
| [] => ""
| [x] => x
| x :: xs => x ++ sep ++ joinWith sep xs

/-- `path.basename` for POSIX paths. -/
def pathBasename (p : String) : String := (splitPath p).getLastD ""

/-- `path.dirname` for POSIX paths. -/
def pathDirname (p : String) : String :=
  let parts := splitPath p
  if parts.length ≤ 1 then "."
  else if parts.dropLast = [""] then "/"
  else joinWith "/" parts.dropLast

/-- Normalize path segments: drop empty and `.` segments, let `..` pop. -/
def normalizeSegs (segs : List String) : List String :=
  segs.foldl
    (fun acc seg =>
      if seg = "" ∨ seg = "." then acc
      else if seg = ".." then acc.dropLast
      else acc ++ [seg]) []

/-- `String.prototype.startsWith`, computably on character lists. -/
def strStartsWith (s pre : String) : Bool := pre.toList.isPrefixOf s.toList

/-- `String.prototype.endsWith`, computably on character lists. -/
def strEndsWith (s suf : String) : Bool := suf.toList.isSuffixOf s.toList

/-- `path.resolve(base, rel)` for an absolute `base` (the only way the
dependency resolver calls it: `path.resolve(path.dirname(file), dep)` with
`file` absolute). -/
def pathResolve (base rel : String) : String :=
  let joined := if strStartsWith rel "/" then rel else base ++ "/" ++ rel
  "/" ++ joinWith "/" (normalizeSegs (splitPath joined))

/-- Index of the last `.` in a character list, if any. -/
def lastDotIdx : List Char → Option Nat
| [] => none
| c :: rest =>
    match lastDotIdx rest with
    | some i => some (i + 1)
    | none => if c = '.' then some 0 else none

/-- `path.extname` for POSIX paths: the suffix of the basename from its last
dot, unless that dot is the leading character. -/
def pathExtname (p : String) : String :=
  let bn := pathBasename p
  match lastDotIdx bn.toList with
  | none => ""
  | some 0 => ""
  | some i => String.mk (bn.toList.drop i)

/-- JavaScript `<` on strings: lexicographic comparison. -/
def charListLt : List Char → List Char → Bool
| [], [] => false
| [], _ :: _ => true
| _ :: _, [] => false
| a :: as, b :: bs => if a < b then true else if b < a then false else charListLt as bs

/-- JavaScript `a < b` on strings. -/
def strLt (a b : String) : Bool := charListLt a.toList b.toList

/-! ## Dependency graph
(`src/analyzer/structure/dependency-graph.ts`) -/

/-- A graph node (`DependencyNode` in `src/analyzer/types.ts`). -/
structure DependencyNode : Type where
  filePath : String
  imports : List String
  importedBy : List String
  instability : Option ℚ
deriving DecidableEq, Repr

/-- The `nodes` map of `DependencyGraphImpl`: a JS `Map` modelled as an
insertion-ordered association list with unique keys. -/
abbrev NodeMap := List (String × DependencyNode)

/-- `Map.prototype.get`. -/
def mapGet (m : NodeMap) (k : String) : Option DependencyNode := List.lookup k m

/-- `Map.prototype.has`. -/
def mapHas (m : NodeMap) (k : String) : Bool := (mapGet m k).isSome

/-- `Map.prototype.set`: replace in place when the key exists, append
otherwise. -/
def mapSet {α : Type} (m : List (String × α)) (k : String) (v : α) : List (String × α) :=
  match m with
  | [] => [(k, v)]
  | (k1, v1) :: rest => if k1 == k then (k1, v) :: rest else (k1, v1) :: mapSet rest k v

/-- `node.imports = [...dependencies]` in `addNode` (line 54): overwrite the
imports list of the node stored at `k`. -/
def setImports (m : NodeMap) (k : String) (deps : List String) : NodeMap :=
  m.map fun kv => if kv.1 == k then (kv.1, { kv.2 with imports := deps }) else kv

/-- The loop body of `addNode` (lines 57-80): register `filePath` as an
importer of `depPath`, creating the dependency node on demand and
deduplicating the `importedBy` list. -/
def addImportedBy (m : NodeMap) (depPath filePath : String) : NodeMap :=
  match mapGet m depPath with
  | none => mapSet m depPath ⟨depPath, [], [filePath], none⟩
  | some depNode =>
      if filePath ∈ depNode.importedBy then m
      else m.map fun kv =>
        if kv.1 == depPath then (kv.1, { kv.2 with importedBy := kv.2.importedBy ++ [filePath] })
        else kv

/-- `DependencyGraphImpl.addNode` (lines 32-81): ensure the node exists, set
its imports to (a copy of) `dependencies`, and add the reverse edges. -/
def addNode (m : NodeMap) (filePath : String) (dependencies : List String) : NodeMap :=
  let m1 := if mapHas m filePath then m else mapSet m filePath ⟨filePath, [], [], none⟩
  let m2 := setImports m1 filePath dependencies
  dependencies.foldl (fun acc depPath => addImportedBy acc depPath filePath) m2

/-- The instability value computed by `calculateInstability` (lines 103-129):
`outDegree / (outDegree + inDegree)`, zero for an isolated node. -/
def calculateInstabilityValue (node : DependencyNode) : ℚ :=
  let outDegree := node.imports.length
  let inDegree := node.importedBy.length
  if outDegree + inDegree = 0 then 0 else (outDegree : ℚ) / ((outDegree : ℚ) + (inDegree : ℚ))

/-- `calculateAllInstability` (lines 89-96): store the instability on every
node (the iteration only writes each node's own `instability` field). -/
def calculateAllInstability (m : NodeMap) : NodeMap :=
  m.map fun kv => (kv.1, { kv.2 with instability := some (calculateInstabilityValue kv.2) })

/-- `isNodeModule` (lines 389-395). -/
def isNodeModule (depPath : String) : Bool :=
  !(strStartsWith depPath "." || strStartsWith depPath "/" || strStartsWith depPath "~")

/-- `inferExtension` (lines 403-412). -/
def inferExtension (filePath language : String) : String :=
  if language = "typescript" then (if strEndsWith filePath ".d" then ".d.ts" else ".ts")
  else if language = "javascript" then ".js"
  else ""

/-- The per-file body of `resolveDependencies` (lines 292-379): resolve each
raw dependency of `result`, keeping only paths that are also analyzed files.
(The `filePathMap` built at lines 276-286 is dead state: resolution never
reads it.) -/
def resolveOne (results : List FileAnalysisResult) (result : FileAnalysisResult) : List String :=
  result.dependencies.foldl
    (fun acc dep =>
      if isNodeModule dep then acc
      else
        let resolved :=
          if strStartsWith dep "." then pathResolve (pathDirname result.filePath) dep else dep
        let resolved :=
          if pathExtname resolved = "" then resolved ++ inferExtension resolved result.language
          else resolved
        if results.any (fun r => r.filePath == resolved) then acc ++ [resolved] else acc)
    []

/-- `resolveDependencies`: the `Map<string, string[]>` of resolved dependency
lists, keyed by file path in result order. -/
def resolveDependencies (results : List FileAnalysisResult) : List (String × List String) :=
  results.foldl (fun m result => mapSet m result.filePath (resolveOne results result)) []

/-- `DependencyGraphBuilder.buildGraph` (lines 215-259): pre-seed a node per
analyzed file, resolve raw dependencies, insert the edges via `addNode`, and
compute instability. -/
def buildGraph (results : List FileAnalysisResult) : NodeMap :=
  let g0 : NodeMap := results.foldl
    (fun g r => if mapHas g r.filePath then g else mapSet g r.filePath ⟨r.filePath, [], [], none⟩)
    []
  let resolvedDeps := resolveDependencies results
  let g1 := resolvedDeps.foldl (fun g kv => addNode g kv.1 kv.2) g0
  calculateAllInstability g1

/-! ## Cycle detection
(`getCircularDependencies` / `detectCircles`, lines 135-197) -/

/-- `Array.prototype.join("->")` on a cycle. -/
def joinedForm (c : List String) : String := joinWith "->" c

/-- `circle.reduce((min, p) => (p < min ? p : min), circle[0])`. -/
def reduceMin (circle : List String) : String :=
  circle.foldl (fun mn p => if strLt p mn then p else mn) (circle.headD "")

/-- `Array.prototype.indexOf`, as an `Option`al index. -/
def firstIdxOf : List String → String → Option Nat
| [], _ => none
| x :: xs, y => if x == y then some 0 else (firstIdxOf xs y).map (· + 1)

/-- The normalization step of `detectCircles` (lines 166-174): rotate the
cycle so it starts at its smallest element and close it by repeating that
element. -/
def normalizeCircle (circle : List String) : List String :=
  let m := reduceMin circle
  let minIndex := (firstIdxOf circle m).getD 0
  circle.drop minIndex ++ circle.take minIndex ++ [circle.getD minIndex ""]

/-- `detectCircles` (lines 153-197), in state-passing form.  The JS method
mutates `path`/`visited` but restores them before returning (`push`/`pop`,
`add`/`delete` are balanced), so only the `circles` accumulator threads
through sequential calls.  The `fuel` argument only forces termination;
`getCircularDependencies` passes enough fuel that it is never exhausted. -/
def detectCircles (g : NodeMap) : Nat → String → List String → List String →
    List (List String) → List (List String)
| 0, _, _, _, circles => circles
| fuel + 1, current, path, visited, circles =>
    if current ∈ visited then
      match firstIdxOf path current with
      | none => circles
      | some startIndex =>
          let circle := path.drop startIndex
          let normalized := normalizeCircle circle
          let circleStr := joinedForm normalized
          if circles.any (fun c => joinedForm c == circleStr) then circles
          else circles ++ [normalized]
    else
      let path2 := path ++ [current]
      let visited2 := visited ++ [current]
      match mapGet g current with
      | some node =>
          node.imports.foldl (fun acc imp => detectCircles g fuel imp path2 visited2 acc) circles
      | none => circles

/-- Fuel bound for `detectCircles`: the DFS path never repeats an element, and
every element on it is a key of the map or an entry of some imports list. -/
def graphFuel (g : NodeMap) : Nat :=
  g.length + g.foldl (fun a kv => a + kv.2.imports.length) 0 + 2

/-- `getCircularDependencies` (lines 135-144): run the DFS from every key,
sharing the `circles` accumulator. -/
def getCircularDependencies (g : NodeMap) : List (List String) :=
  g.foldl (fun circles kv => detectCircles g (graphFuel g) kv.1 [] [] circles) []

end AIFocus

namespace AIFocus

/-! ## Lookup characterizations for the graph operations -/

/-- Unfolding `mapGet` over a cons cell. -/
theorem mapGet_cons (k k1 : String) (v : DependencyNode) (m : NodeMap) :
    mapGet ((k1, v) :: m) k = if k = k1 then some v else mapGet m k := by
  rcases eq_or_ne k k1 with h | h
  · simp [mapGet, List.lookup, h]
  · simp [mapGet, List.lookup, h, beq_false_of_ne h]

/-- `mapGet` after `mapSet`. -/
theorem mapGet_mapSet (m : NodeMap) (k : String) (v : DependencyNode) (k2 : String) :
    mapGet (mapSet m k v) k2 = if k2 = k then some v else mapGet m k2 := by
  induction m with
  | nil =>
      rw [show mapSet ([] : NodeMap) k v = [(k, v)] from rfl, mapGet_cons]
  | cons hd tl ih =>
      obtain ⟨k1, v1⟩ := hd
      rcases eq_or_ne k1 k with h1 | h1
      · subst h1
        simp only [mapSet, beq_self_eq_true, if_true, mapGet_cons]
        rcases eq_or_ne k2 k1 with h2 | h2 <;> simp [h2]
      · simp only [mapSet, beq_false_of_ne h1, Bool.false_eq_true, if_false, mapGet_cons, ih]
        rcases eq_or_ne k2 k1 with h2 | h2
        · simp [h2, h1, Ne.symm h1]
        · simp [h2]

/-- `mapGet` after updating the value stored at key `d`. -/
theorem mapGet_update (m : NodeMap) (d : String) (f : DependencyNode → DependencyNode)
    (k : String) :
    mapGet (m.map fun kv => if kv.1 == d then (kv.1, f kv.2) else kv) k =
      if k = d then (mapGet m d).map f else mapGet m k := by
  induction m with
  | nil => simp [mapGet]
  | cons hd tl ih =>
      obtain ⟨k1, v1⟩ := hd
      rcases eq_or_ne k1 d with h1 | h1
      · subst h1
        simp only [List.map, beq_self_eq_true, if_true, mapGet_cons, ih]
        rcases eq_or_ne k k1 with h2 | h2 <;> simp [h2]
      · simp only [List.map, beq_false_of_ne h1, Bool.false_eq_true, if_false, mapGet_cons, ih]
        rcases eq_or_ne k k1 with h2 | h2
        · simp [h2, h1, Ne.symm h1]
        · simp [h2, Ne.symm h1]

/-- `mapGet` after a value-only `List.map`. -/
theorem mapGet_mapVal (m : NodeMap) (g : DependencyNode → DependencyNode) (k : String) :
    mapGet (m.map fun kv => (kv.1, g kv.2)) k = (mapGet m k).map g := by
  induction m with
  | nil => simp [mapGet]
  | cons hd tl ih =>
      obtain ⟨k1, v1⟩ := hd
      simp only [List.map, mapGet_cons, ih]
      rcases eq_or_ne k k1 with h2 | h2
      · simp [h2]
      · simp [h2]

/-- The effect of one `addImportedBy` step on every key. -/
theorem mapGet_addImportedBy (m : NodeMap) (d fp k : String) :
    mapGet (addImportedBy m d fp) k =
      if k = d then
        some (match mapGet m d with
          | none => ⟨d, [], [fp], none⟩
          | some n =>
              if fp ∈ n.importedBy then n
              else { n with importedBy := n.importedBy ++ [fp] })
      else mapGet m k := by
  unfold addImportedBy
  cases h : mapGet m d with
  | none => rw [mapGet_mapSet]
  | some n =>
      by_cases hfp : fp ∈ n.importedBy
      · simp only [hfp, if_true]
        rcases eq_or_ne k d with h2 | h2
        · simp [h2, h]
        · simp [h2]
      · simp only [hfp, if_false]
        refine (mapGet_update m d
          (fun x => { x with importedBy := x.importedBy ++ [fp] }) k).trans ?_
        rw [h]
        rcases eq_or_ne k d with h2 | h2 <;> simp [h2, hfp]

end AIFocus

namespace AIFocus

/-- `mapGet` after `setImports`. -/
theorem mapGet_setImports (m : NodeMap) (k : String) (deps : List String) (k2 : String) :
    mapGet (setImports m k deps) k2 =
      if k2 = k then (mapGet m k).map (fun n => { n with imports := deps })
      else mapGet m k2 := by
  unfold setImports
  exact mapGet_update m k (fun n => { n with imports := deps }) k2

/-- The effect of the whole `addImportedBy` fold inside `addNode`: a key in
`deps` gains `fp` in its `importedBy` (once), a missing key in `deps` is
created with `importedBy = [fp]`, everything else is untouched. -/
theorem foldAIB_get (deps : List String) (fp : String) (m : NodeMap) (k : String) :
    mapGet (deps.foldl (fun acc d => addImportedBy acc d fp) m) k =
      match mapGet m k with
      | some n => some (if k ∈ deps ∧ fp ∉ n.importedBy
                        then { n with importedBy := n.importedBy ++ [fp] } else n)
      | none => if k ∈ deps then some ⟨k, [], [fp], none⟩ else none := by
  induction deps generalizing m with
  | nil => cases h : mapGet m k <;> simp [h]
  | cons d rest ih =>
      rw [List.foldl_cons, ih, mapGet_addImportedBy]
      rcases eq_or_ne k d with h2 | h2
      · subst h2
        simp only [if_true]
        cases h : mapGet m k with
        | none =>
            simp [h, List.mem_cons]
        | some n =>
            by_cases hfp : fp ∈ n.importedBy
            · simp [h, hfp]
            · simp [h, hfp, List.mem_cons]
      · rw [if_neg h2]
        cases h : mapGet m k with
        | none => simp [h, h2, List.mem_cons]
        | some n => simp [h, h2, List.mem_cons]

end AIFocus

namespace AIFocus

/-- The node stored at `fp` when `addNode` starts inserting edges: the
existing node, or a freshly created empty one. -/
def baseNodeAt (m : NodeMap) (fp : String) : DependencyNode :=
  match mapGet m fp with
  | some n => n
  | none => ⟨fp, [], [], none⟩

/-- Full characterization of `addNode`: the node at `fp` gets its imports
overwritten with `deps`, then every key in `deps` gains `fp` in its
`importedBy` (deduplicated), with missing targets created on demand. -/
theorem mapGet_addNode (m : NodeMap) (fp : String) (deps : List String) (k : String) :
    mapGet (addNode m fp deps) k =
      match (if k = fp then some { baseNodeAt m fp with imports := deps } else mapGet m k) with
      | some n => some (if k ∈ deps ∧ fp ∉ n.importedBy
                        then { n with importedBy := n.importedBy ++ [fp] } else n)
      | none => if k ∈ deps then some ⟨k, [], [fp], none⟩ else none := by
  unfold addNode
  rw [foldAIB_get]
  have hpre : mapGet (setImports (if mapHas m fp then m
        else mapSet m fp ⟨fp, [], [], none⟩) fp deps) k =
      if k = fp then some { baseNodeAt m fp with imports := deps } else mapGet m k := by
    by_cases hh : mapHas m fp
    · obtain ⟨n, hn⟩ := Option.isSome_iff_exists.mp hh
      rw [if_pos hh, mapGet_setImports]
      rcases eq_or_ne k fp with h2 | h2
      · simp [h2, hn, baseNodeAt]
      · simp [h2]
    · rw [if_neg hh, mapGet_setImports]
      simp only [mapGet_mapSet]
      have hn : mapGet m fp = none := by
        cases h : mapGet m fp with
        | none => rfl
        | some n => exact absurd (by simp [mapHas, h]) hh
      rcases eq_or_ne k fp with h2 | h2
      · simp [h2, hn, baseNodeAt]
      · simp [h2, hn]
  rw [hpre]

end AIFocus



namespace AIFocus

/-- Edge symmetry: every `imports` entry has a matching `importedBy` entry and
conversely. -/
def GraphSym (m : NodeMap) : Prop :=
  ∀ p np, mapGet m p = some np →
    (∀ q ∈ np.imports, ∃ nq, mapGet m q = some nq ∧ p ∈ nq.importedBy) ∧
    (∀ q ∈ np.importedBy, ∃ nq, mapGet m q = some nq ∧ p ∈ nq.imports)

/-- Every `importedBy` list is duplicate-free. -/
def IBNodup (m : NodeMap) : Prop :=
  ∀ p np, mapGet m p = some np → np.importedBy.Nodup

/-- Key `p` has not been processed yet: its node (if any) has no imports, and
no node lists `p` as an importer. -/
def Untouched (m : NodeMap) (p : String) : Prop :=
  (∀ np, mapGet m p = some np → np.imports = []) ∧
  (∀ k nk, mapGet m k = some nk → p ∉ nk.importedBy)

/-- The fresh key of an `addNode` call is in nobody's `importedBy`, in
particular not in its own base node's. -/
theorem untouched_base (m : NodeMap) (fp : String) (hfrE : Untouched m fp) :
    fp ∉ (baseNodeAt m fp).importedBy := by
  unfold baseNodeAt
  cases h : mapGet m fp with
  | none => simp
  | some n => exact hfrE.2 fp n h

/-- The node `addNode` leaves at its own key. -/
theorem addNode_get_self (m : NodeMap) (fp : String) (deps : List String)
    (hIBfp : fp ∉ (baseNodeAt m fp).importedBy) :
    mapGet (addNode m fp deps) fp =
      some (if fp ∈ deps
            then { (baseNodeAt m fp) with imports := deps, importedBy := (baseNodeAt m fp).importedBy ++ [fp] }
            else { (baseNodeAt m fp) with imports := deps }) := by
  rw [mapGet_addNode]
  by_cases hd : fp ∈ deps <;> simp [hd, hIBfp]

/-- After `addNode`, every dependency in `deps` has a node listing `fp` as an
importer. -/
theorem addNode_dep_importedBy (m : NodeMap) (fp : String) (deps : List String)
    (hfrE : Untouched m fp) :
    ∀ q ∈ deps, ∃ nq, mapGet (addNode m fp deps) q = some nq ∧ fp ∈ nq.importedBy := by
  intro q hq
  by_cases hqfp : q = fp
  · subst hqfp
    rw [addNode_get_self m q deps (untouched_base m q hfrE)]
    refine ⟨_, rfl, ?_⟩
    simp [hq]
  · rw [mapGet_addNode, if_neg hqfp]
    cases h2 : mapGet m q with
    | none =>
        exact ⟨⟨q, [], [fp], none⟩, by simp [hq], by simp⟩
    | some nq =>
        have hnfp : fp ∉ nq.importedBy := hfrE.2 q nq h2
        exact ⟨{ nq with importedBy := nq.importedBy ++ [fp] }, by simp [hq, hnfp], by simp⟩

/-- After `addNode`, a node's `imports` are `deps` at `fp`, the old list at a
pre-existing key, and empty at a freshly created key. -/
theorem addNode_imports (m : NodeMap) (fp : String) (deps : List String) :
    ∀ p np, mapGet (addNode m fp deps) p = some np →
      (p = fp ∧ np.imports = deps) ∨
      (p ≠ fp ∧ ((∃ n0, mapGet m p = some n0 ∧ np.imports = n0.imports) ∨ np.imports = [])) := by
  intro p np hp
  rw [mapGet_addNode] at hp
  by_cases hpfp : p = fp
  · subst hpfp
    rw [if_pos rfl] at hp
    injection hp with hp
    subst hp
    refine Or.inl ⟨rfl, ?_⟩
    split <;> rfl
  · rw [if_neg hpfp] at hp
    refine Or.inr ⟨hpfp, ?_⟩
    cases h2 : mapGet m p with
    | none =>
        rw [h2] at hp
        by_cases hpd : p ∈ deps
        · simp only [hpd, if_true] at hp
          injection hp with hp
          subst hp
          exact Or.inr rfl
        · simp [hpd] at hp
    | some n0 =>
        rw [h2] at hp
        injection hp with hp
        subst hp
        refine Or.inl ⟨n0, rfl, ?_⟩
        split <;> rfl

/-- After `addNode`, every `importedBy` entry either existed before or is the
new edge from `fp` into one of its `deps`. -/
theorem addNode_importedBy_src (m : NodeMap) (fp : String) (deps : List String) :
    ∀ p np, mapGet (addNode m fp deps) p = some np → ∀ q ∈ np.importedBy,
      (∃ n0, mapGet m p = some n0 ∧ q ∈ n0.importedBy) ∨ (q = fp ∧ p ∈ deps) := by
  intro p np hp q hq
  rw [mapGet_addNode] at hp
  by_cases hpfp : p = fp
  · subst hpfp
    rw [if_pos rfl] at hp
    injection hp with hp
    subst hp
    rw [show ({ baseNodeAt m p with imports := deps } : DependencyNode).importedBy
          = (baseNodeAt m p).importedBy from rfl] at hq
    have hmem : q ∈ (baseNodeAt m p).importedBy ∨ (q = p ∧ p ∈ deps) := by
      by_cases hC : p ∈ deps ∧ p ∉ (baseNodeAt m p).importedBy
      · rw [if_pos hC] at hq
        rcases List.mem_append.mp hq with h | h
        · exact Or.inl h
        · exact Or.inr ⟨List.mem_singleton.mp h, hC.1⟩
      · rw [if_neg hC] at hq
        exact Or.inl hq
    rcases hmem with h | ⟨h1, h2⟩
    · cases h0 : mapGet m p with
      | none =>
          exfalso
          rw [show baseNodeAt m p = ⟨p, [], [], none⟩ from by simp [baseNodeAt, h0]] at h
          simp at h
      | some n0 =>
          refine Or.inl ⟨n0, rfl, ?_⟩
          rwa [show baseNodeAt m p = n0 from by simp [baseNodeAt, h0]] at h
    · exact Or.inr ⟨h1, h2⟩
  · rw [if_neg hpfp] at hp
    cases h2 : mapGet m p with
    | none =>
        rw [h2] at hp
        by_cases hpd : p ∈ deps
        · simp only [hpd, if_true] at hp
          injection hp with hp
          subst hp
          exact Or.inr ⟨by simpa using hq, hpd⟩
        · simp [hpd] at hp
    | some n0 =>
        rw [h2] at hp
        injection hp with hp
        subst hp
        by_cases hC : p ∈ deps ∧ fp ∉ n0.importedBy
        · rw [if_pos hC] at hq
          rcases List.mem_append.mp hq with h | h
          · exact Or.inl ⟨n0, rfl, h⟩
          · exact Or.inr ⟨List.mem_singleton.mp h, hC.1⟩
        · rw [if_neg hC] at hq
          exact Or.inl ⟨n0, rfl, hq⟩

/-- `addNode` keeps every pre-existing node, only growing its `importedBy`
list, and leaves `imports` unchanged away from `fp`. -/
theorem addNode_mono (m : NodeMap) (fp : String) (deps : List String) :
    ∀ p n0, mapGet m p = some n0 → ∃ np, mapGet (addNode m fp deps) p = some np ∧
      (∀ x ∈ n0.importedBy, x ∈ np.importedBy) ∧ (p ≠ fp → np.imports = n0.imports) := by
  intro p n0 h0
  rw [mapGet_addNode]
  by_cases hpfp : p = fp
  · subst hpfp
    rw [if_pos rfl]
    refine ⟨_, rfl, ?_, fun h => absurd rfl h⟩
    intro x hx
    have hbase : baseNodeAt m p = n0 := by simp [baseNodeAt, h0]
    rw [show ({ baseNodeAt m p with imports := deps } : DependencyNode).importedBy
          = (baseNodeAt m p).importedBy from rfl]
    split
    · simp [hbase, hx]
    · rw [hbase]
      exact hx
  · rw [if_neg hpfp, h0]
    refine ⟨_, rfl, ?_, fun _ => ?_⟩
    · intro x hx
      split
      · simp [hx]
      · exact hx
    · split <;> rfl

/-- `addNode` preserves duplicate-freeness of all `importedBy` lists when its
key is fresh. -/
theorem addNode_ibNodup (m : NodeMap) (fp : String) (deps : List String)
    (hnd : IBNodup m) (hfrE : Untouched m fp) : IBNodup (addNode m fp deps) := by
  intro p np hp
  rw [mapGet_addNode] at hp
  by_cases hpfp : p = fp
  · subst hpfp
    rw [if_pos rfl] at hp
    injection hp with hp
    subst hp
    have hIBfp : p ∉ (baseNodeAt m p).importedBy := untouched_base m p hfrE
    have hbnd : (baseNodeAt m p).importedBy.Nodup := by
      unfold baseNodeAt
      cases h : mapGet m p with
      | none => simp
      | some n => exact hnd p n h
    split
    · simpa [List.nodup_append] using ⟨hbnd, hIBfp⟩
    · simpa using hbnd
  · rw [if_neg hpfp] at hp
    cases h2 : mapGet m p with
    | none =>
        rw [h2] at hp
        by_cases hpd : p ∈ deps
        · simp only [hpd, if_true] at hp
          injection hp with hp
          subst hp
          simp
        · simp [hpd] at hp
    | some n0 =>
        rw [h2] at hp
        injection hp with hp
        subst hp
        have h0nd : n0.importedBy.Nodup := hnd p n0 h2
        split
        · rename_i hC
          simpa [List.nodup_append] using ⟨h0nd, hC.2⟩
        · simpa using h0nd

/-- `addNode` preserves symmetry and leaves other unprocessed keys untouched. -/
theorem addNode_preserves (m : NodeMap) (fp : String) (deps : List String)
    (hsym : GraphSym m) (hfrE : Untouched m fp) :
    GraphSym (addNode m fp deps) ∧
      ∀ p, p ≠ fp → Untouched m p → Untouched (addNode m fp deps) p := by
  constructor
  · intro p np hp
    constructor
    · intro q hq
      rcases addNode_imports m fp deps p np hp with ⟨hpfp, himp⟩ | ⟨hpfp, himp⟩
      · subst hpfp
        exact addNode_dep_importedBy m p deps hfrE q (himp ▸ hq)
      · rcases himp with ⟨n0, h0, heq⟩ | hnil
        · rw [heq] at hq
          obtain ⟨nq, hnq, hpin⟩ := (hsym p n0 h0).1 q hq
          obtain ⟨nq2, hnq2, hsub, _⟩ := addNode_mono m fp deps q nq hnq
          exact ⟨nq2, hnq2, hsub p hpin⟩
        · rw [hnil] at hq
          exact absurd hq (List.not_mem_nil q)
    · intro q hq
      rcases addNode_importedBy_src m fp deps p np hp q hq with ⟨n0, h0, hqin⟩ | ⟨hqfp, hpd⟩
      · obtain ⟨nq, hnq, hpimp⟩ := (hsym p n0 h0).2 q hqin
        have hqfp : q ≠ fp := by
          intro h
          subst h
          exact hfrE.2 p n0 h0 hqin
        obtain ⟨nq2, hnq2, _, himp⟩ := addNode_mono m fp deps q nq hnq
        exact ⟨nq2, hnq2, (himp hqfp) ▸ hpimp⟩
      · subst hqfp
        rw [addNode_get_self m q deps (untouched_base m q hfrE)]
        refine ⟨_, rfl, ?_⟩
        split <;> simpa using hpd
  · intro p hpfp hu
    constructor
    · intro np hp
      rcases addNode_imports m fp deps p np hp with ⟨h, _⟩ | ⟨_, himp⟩
      · exact absurd h hpfp
      · rcases himp with ⟨n0, h0, heq⟩ | hnil
        · rw [heq]
          exact hu.1 n0 h0
        · exact hnil
    · intro k nk hk hmem
      rcases addNode_importedBy_src m fp deps k nk hk p hmem with ⟨n0, h0, hpin⟩ | ⟨hpeq, _⟩
      · exact hu.2 k n0 h0 hpin
      · exact hpfp hpeq

end AIFocus

namespace AIFocus

/-- Characterization of the pre-seeding fold in `buildGraph`. -/
theorem mapGet_preSeed (results : List FileAnalysisResult) (g : NodeMap) (k : String) :
    mapGet (results.foldl
        (fun g r => if mapHas g r.filePath then g
                    else mapSet g r.filePath ⟨r.filePath, [], [], none⟩) g) k =
      match mapGet g k with
      | some n => some n
      | none => if results.any (fun r => r.filePath == k) then some ⟨k, [], [], none⟩ else none := by
  induction results generalizing g with
  | nil => cases h : mapGet g k <;> simp [h]
  | cons r rest ih =>
      rw [List.foldl_cons, ih]
      by_cases hh : mapHas g r.filePath
      · rw [if_pos hh]
        cases h : mapGet g k with
        | some n => simp [h]
        | none =>
            have hne : r.filePath ≠ k := by
              intro he
              rw [he] at hh
              simp [mapHas, h] at hh
            simp [h, List.any_cons, beq_false_of_ne hne]
      · rw [if_neg hh]
        have hg : mapGet g r.filePath = none := by
          cases h2 : mapGet g r.filePath with
          | none => rfl
          | some n => exact absurd (by simp [mapHas, h2]) hh
        rcases eq_or_ne k r.filePath with he | he
        · subst he
          simp [mapGet_mapSet, hg, List.any_cons]
        · simp only [mapGet_mapSet, he, if_false]
          cases h : mapGet g k with
          | some n => simp [h]
          | none => simp [h, List.any_cons, beq_false_of_ne (Ne.symm he)]

/-- Every node of the pre-seeded graph is empty. -/
theorem preSeed_node (results : List FileAnalysisResult) (k : String) (n : DependencyNode) :
    mapGet (results.foldl
        (fun g r => if mapHas g r.filePath then g
                    else mapSet g r.filePath ⟨r.filePath, [], [], none⟩) ([] : NodeMap)) k =
      some n → n = ⟨k, [], [], none⟩ := by
  intro h
  rw [mapGet_preSeed] at h
  by_cases hin : results.any (fun r => r.filePath == k)
  · simp only [mapGet, List.lookup, hin, if_true] at h
    exact (Option.some_inj.mp h).symm
  · simp [mapGet, List.lookup, hin] at h

/-- Keys after a `mapSet`. -/
theorem mapSet_keys {α : Type} (m : List (String × α)) (k : String) (v : α) :
    (mapSet m k v).map Prod.fst =
      if k ∈ m.map Prod.fst then m.map Prod.fst else m.map Prod.fst ++ [k] := by
  induction m with
  | nil => simp [mapSet]
  | cons hd tl ih =>
      obtain ⟨k1, v1⟩ := hd
      rcases eq_or_ne k1 k with h1 | h1
      · subst h1
        simp [mapSet]
      · simp only [mapSet, beq_false_of_ne h1, Bool.false_eq_true, if_false, List.map_cons, ih]
        by_cases h2 : k ∈ tl.map Prod.fst
        · simp [h2, Ne.symm h1]
        · simp [h2, Ne.symm h1, List.mem_cons]

/-- The resolved-dependencies map has duplicate-free keys. -/
theorem resolveDependencies_keys_nodup (results : List FileAnalysisResult) :
    ((resolveDependencies results).map Prod.fst).Nodup := by
  unfold resolveDependencies
  suffices h : ∀ (l : List FileAnalysisResult) (g : List (String × List String)),
      (g.map Prod.fst).Nodup →
      ((l.foldl (fun m result => mapSet m result.filePath (resolveOne results result)) g).map
        Prod.fst).Nodup by
    exact h results [] (by simp)
  intro l
  induction l with
  | nil => intro g hg; exact hg
  | cons r rest ih =>
      intro g hg
      rw [List.foldl_cons]
      refine ih _ ?_
      rw [mapSet_keys]
      by_cases h2 : r.filePath ∈ g.map Prod.fst
      · simp [h2, hg]
      · simp [h2, hg, List.nodup_append]

/-- The edge-inserting fold of `buildGraph` establishes symmetry and
`importedBy`-dedup, given pairwise-distinct keys that are all untouched. -/
theorem foldAddNode_inv (entries : List (String × List String)) (g : NodeMap)
    (hsym : GraphSym g) (hnd : IBNodup g)
    (hfr : ∀ p ∈ entries.map Prod.fst, Untouched g p)
    (hkeys : (entries.map Prod.fst).Nodup) :
    GraphSym (entries.foldl (fun g kv => addNode g kv.1 kv.2) g) ∧
      IBNodup (entries.foldl (fun g kv => addNode g kv.1 kv.2) g) := by
  induction entries generalizing g with
  | nil => exact ⟨hsym, hnd⟩
  | cons e rest ih =>
      obtain ⟨fp, deps⟩ := e
      rw [List.foldl_cons]
      have hfrE : Untouched g fp := hfr fp (by simp)
      obtain ⟨hsym2, hunt⟩ := addNode_preserves g fp deps hsym hfrE
      have hnd2 := addNode_ibNodup g fp deps hnd hfrE
      have hkeys2 : ((rest.map Prod.fst).Nodup ∧ fp ∉ rest.map Prod.fst) := by
        rw [List.map_cons, List.nodup_cons] at hkeys
        exact ⟨hkeys.2, hkeys.1⟩
      refine ih (addNode g fp deps) hsym2 hnd2 ?_ hkeys2.1
      intro p hp
      have hpfp : p ≠ fp := by
        intro h
        subst h
        exact hkeys2.2 hp
      exact hunt p hpfp (hfr p (by simp [hp]))

/-- `calculateAllInstability` only rewrites the `instability` field. -/
theorem mapGet_calcInstab (m : NodeMap) (k : String) :
    mapGet (calculateAllInstability m) k =
      (mapGet m k).map (fun n => { n with instability := some (calculateInstabilityValue n) }) := by
  unfold calculateAllInstability
  exact mapGet_mapVal m (fun n => { n with instability := some (calculateInstabilityValue n) }) k

/-- The dependency graph built by `buildGraph` is edge-symmetric and all its
`importedBy` lists are duplicate-free. -/
theorem buildGraph_sym_nodup (results : List FileAnalysisResult) :
    GraphSym (buildGraph results) ∧ IBNodup (buildGraph results) := by
  unfold buildGraph
  have hseed := preSeed_node results
  set g0 : NodeMap := results.foldl
    (fun g r => if mapHas g r.filePath then g
                else mapSet g r.filePath ⟨r.filePath, [], [], none⟩) ([] : NodeMap) with hg0
  have hsym0 : GraphSym g0 := by
    intro p np hp
    rw [hseed p np hp]
    exact ⟨by intro q hq; exact absurd hq (List.not_mem_nil q),
           by intro q hq; exact absurd hq (List.not_mem_nil q)⟩
  have hnd0 : IBNodup g0 := by
    intro p np hp
    rw [hseed p np hp]
    simp
  have hfr0 : ∀ p, Untouched g0 p := by
    intro p
    constructor
    · intro np hp
      rw [hseed p np hp]
    · intro k nk hk
      rw [hseed k nk hk]
      simp
  obtain ⟨hsym1, hnd1⟩ := foldAddNode_inv (resolveDependencies results) g0 hsym0 hnd0
    (fun p _ => hfr0 p) (resolveDependencies_keys_nodup results)
  constructor
  · intro p np hp
    rw [mapGet_calcInstab] at hp
    cases h1 : mapGet (List.foldl (fun g kv => addNode g kv.1 kv.2) g0
        (resolveDependencies results)) p with
    | none => rw [h1] at hp; exact absurd hp (by simp)
    | some n1 =>
        rw [h1] at hp
        injection hp with hp
        subst hp
        obtain ⟨hfwd, hbwd⟩ := hsym1 p n1 h1
        constructor
        · intro q hq
          obtain ⟨nq, hnq, hin⟩ := hfwd q hq
          exact ⟨_, by rw [mapGet_calcInstab, hnq]; rfl, by simpa using hin⟩
        · intro q hq
          obtain ⟨nq, hnq, hin⟩ := hbwd q hq
          exact ⟨_, by rw [mapGet_calcInstab, hnq]; rfl, by simpa using hin⟩
  · intro p np hp
    rw [mapGet_calcInstab] at hp
    cases h1 : mapGet (List.foldl (fun g kv => addNode g kv.1 kv.2) g0
        (resolveDependencies results)) p with
    | none => rw [h1] at hp; exact absurd hp (by simp)
    | some n1 =>
        rw [h1] at hp
        injection hp with hp
        subst hp
        simpa using hnd1 p n1 h1

end AIFocus

namespace AIFocus

/-- C3.  Edge symmetry of `buildGraph`: whenever `q` is among `np.imports`,
the node of `q` lists `p` in its `importedBy`, and symmetrically. -/
theorem claim_C3_edge_symmetry (results : List FileAnalysisResult) (p : String)
    (np : DependencyNode) (hp : mapGet (buildGraph results) p = some np) (q : String) :
    (q ∈ np.imports → ∃ nq, mapGet (buildGraph results) q = some nq ∧ p ∈ nq.importedBy) ∧
    (q ∈ np.importedBy → ∃ nq, mapGet (buildGraph results) q = some nq ∧ p ∈ nq.imports) := by
  obtain ⟨h1, h2⟩ := (buildGraph_sym_nodup results).1 p np hp
  exact ⟨fun hq => h1 q hq, fun hq => h2 q hq⟩

/-- `a.ts` importing `./b` (end-to-end scenario 1). -/
def cycleFileA : FileAnalysisResult :=
  ⟨"/p/a.ts", "typescript", fun _ => none, [], ["./b"]⟩

/-- `b.ts` importing `./a` (end-to-end scenario 1). -/
def cycleFileB : FileAnalysisResult :=
  ⟨"/p/b.ts", "typescript", fun _ => none, [], ["./a"]⟩

/-- Witness for C3 on the two-file cycle: `b.ts` records `a.ts` as importer
because `a.ts` imports it. -/
theorem claim_C3_witness :
    "/p/a.ts" ∈ ((mapGet (buildGraph [cycleFileA, cycleFileB]) "/p/b.ts").getD
      ⟨"", [], [], none⟩).importedBy := by
  have hs : (mapGet (buildGraph [cycleFileA, cycleFileB]) "/p/a.ts").isSome := by decide
  have hmem : "/p/b.ts" ∈ ((mapGet (buildGraph [cycleFileA, cycleFileB]) "/p/a.ts").getD
      ⟨"", [], [], none⟩).imports := by decide
  obtain ⟨v, hv⟩ := Option.isSome_iff_exists.mp hs
  rw [hv] at hmem
  simp only [Option.getD_some] at hmem
  obtain ⟨nq, hnq, hin⟩ :=
    (claim_C3_edge_symmetry [cycleFileA, cycleFileB] "/p/a.ts" v hv "/p/b.ts").1 hmem
  rw [hnq]
  simpa using hin

/-- A file whose raw dependency list names `./y` twice. -/
def dupDepFileX : FileAnalysisResult :=
  ⟨"/a/x.ts", "typescript", fun _ => none, [], ["./y", "./y"]⟩

/-- The target of the duplicated dependency. -/
def dupDepFileY : FileAnalysisResult :=
  ⟨"/a/y.ts", "typescript", fun _ => none, [], []⟩

/-- C9 as stated is false: `addNode` copies the resolved dependency list into
`imports` verbatim (`node.imports = [...dependencies]`), so a raw dependency
occurring twice yields a duplicated `imports` entry. -/
theorem claim_C9_counterexample :
    ¬ (∀ p np, mapGet (buildGraph [dupDepFileX, dupDepFileY]) p = some np →
        np.imports.Nodup ∧ np.importedBy.Nodup) := by
  intro h
  have hs : (mapGet (buildGraph [dupDepFileX, dupDepFileY]) "/a/x.ts").isSome := by decide
  have hdup : ¬ ((mapGet (buildGraph [dupDepFileX, dupDepFileY]) "/a/x.ts").getD
      ⟨"", [], [], none⟩).imports.Nodup := by decide
  obtain ⟨v, hv⟩ := Option.isSome_iff_exists.mp hs
  rw [hv] at hdup
  simp only [Option.getD_some] at hdup
  exact hdup (h "/a/x.ts" v hv).1

/-- C9, amended: after `buildGraph` every node's `importedBy` list is
duplicate-free (the `imports` lists are copied verbatim from the resolved
dependency lists and may repeat an entry). -/
theorem claim_C9_importedBy_nodup (results : List FileAnalysisResult) (p : String)
    (np : DependencyNode) (hp : mapGet (buildGraph results) p = some np) :
    np.importedBy.Nodup :=
  (buildGraph_sym_nodup results).2 p np hp

/-- Witness for the amended C9 at the duplicated-dependency example. -/
theorem claim_C9_witness :
    ((mapGet (buildGraph [dupDepFileX, dupDepFileY]) "/a/y.ts").getD
      ⟨"", [], [], none⟩).importedBy.Nodup := by
  have hs : (mapGet (buildGraph [dupDepFileX, dupDepFileY]) "/a/y.ts").isSome := by decide
  obtain ⟨v, hv⟩ := Option.isSome_iff_exists.mp hs
  have h2 := claim_C9_importedBy_nodup [dupDepFileX, dupDepFileY] "/a/y.ts" v hv
  rw [hv]
  simpa using h2

end AIFocus

namespace AIFocus

/-! ## Properties of cycle normalization and detection -/

/-- `charListLt` is irreflexive. -/
theorem charListLt_irrefl : ∀ l : List Char, charListLt l l = false := by
  intro l
  induction l with
  | nil => rfl
  | cons a as ih =>
      rw [charListLt]
      simp [lt_irrefl, ih]

/-- `charListLt` is transitive. -/
theorem charListLt_trans : ∀ a b c : List Char,
    charListLt a b = true → charListLt b c = true → charListLt a c = true := by
  intro a
  induction a with
  | nil =>
      intro b c hab hbc
      cases b with
      | nil => exact absurd hab (by simp [charListLt])
      | cons y ys =>
          cases c with
          | nil => exact absurd hbc (by simp [charListLt])
          | cons z zs => rfl
  | cons x xs ih =>
      intro b c hab hbc
      cases b with
      | nil => exact absurd hab (by simp [charListLt])
      | cons y ys =>
          cases c with
          | nil => exact absurd hbc (by simp [charListLt])
          | cons z zs =>
              rw [charListLt] at hab hbc ⊢
              by_cases hxy : x < y
              · simp only [hxy, if_true] at hab
                by_cases hyz : y < z
                · simp [lt_trans hxy hyz]
                · simp only [hyz, if_false] at hbc
                  by_cases hzy : z < y
                  · simp [hzy] at hbc
                  · have : y = z := le_antisymm (not_lt.mp hzy) (not_lt.mp hyz)
                    subst this
                    simp [hxy]
              · simp only [hxy, if_false] at hab
                by_cases hyx : y < x
                · simp [hyx] at hab
                · have hxy2 : x = y := le_antisymm (not_lt.mp hyx) (not_lt.mp hxy)
                  subst hxy2
                  by_cases hxz : x < z
                  · simp [hxz]
                  · simp only [hxz, if_false] at hbc ⊢
                    by_cases hzx : z < x
                    · simp [hzx] at hbc
                    · simp only [hzx, if_false] at hbc ⊢
                      exact ih ys zs (by simpa using hab) (by simpa using hbc)

/-- `strLt` is irreflexive. -/
theorem strLt_irrefl (s : String) : strLt s s = false := charListLt_irrefl s.toList

/-- `strLt` is transitive. -/
theorem strLt_trans {a b c : String} (h1 : strLt a b = true) (h2 : strLt b c = true) :
    strLt a c = true := charListLt_trans a.toList b.toList c.toList h1 h2

/-- The minimum fold either strictly decreases below its seed or returns it. -/
theorem reduceMinAux_le (l : List String) : ∀ mn : String,
    strLt (l.foldl (fun mn p => if strLt p mn then p else mn) mn) mn = true ∨
      l.foldl (fun mn p => if strLt p mn then p else mn) mn = mn := by
  induction l with
  | nil => intro mn; exact Or.inr rfl
  | cons p rest ih =>
      intro mn
      rw [List.foldl_cons]
      by_cases hp : strLt p mn
      · rw [if_pos hp]
        rcases ih p with h | h
        · exact Or.inl (strLt_trans h hp)
        · rw [h]; exact Or.inl hp
      · rw [if_neg hp]
        exact ih mn

/-- No element of the list is strictly below the minimum fold's result. -/
theorem reduceMinAux_min (l : List String) : ∀ (mn x : String), x ∈ l →
    strLt x (l.foldl (fun mn p => if strLt p mn then p else mn) mn) = false := by
  induction l with
  | nil => intro mn x hx; exact absurd hx (List.not_mem_nil x)
  | cons p rest ih =>
      intro mn x hx
      rw [List.foldl_cons]
      rcases List.mem_cons.mp hx with hxp | hxr
      · subst hxp
        set mn2 := if strLt x mn then x else mn with hmn2
        have hxmn2 : strLt x mn2 = false := by
          by_cases h : strLt x mn
          · rw [hmn2, if_pos h]; exact strLt_irrefl x
          · rw [hmn2, if_neg h]; simpa using h
        rcases reduceMinAux_le rest mn2 with h | h
        · by_contra hc
          have hc2 : strLt x (rest.foldl (fun mn p => if strLt p mn then p else mn) mn2) = true := by
            simpa using hc
          have := strLt_trans hc2 h
          rw [hxmn2] at this
          exact absurd this (by simp)
        · rw [h]; exact hxmn2
      · exact ih _ x hxr

/-- The minimum fold's result is an element of the list or the seed. -/
theorem reduceMinAux_mem (l : List String) : ∀ mn : String,
    l.foldl (fun mn p => if strLt p mn then p else mn) mn ∈ l ∨
      l.foldl (fun mn p => if strLt p mn then p else mn) mn = mn := by
  induction l with
  | nil => intro mn; exact Or.inr rfl
  | cons p rest ih =>
      intro mn
      rw [List.foldl_cons]
      by_cases hp : strLt p mn
      · rw [if_pos hp]
        rcases ih p with h | h
        · exact Or.inl (List.mem_cons_of_mem p h)
        · rw [h]; exact Or.inl (List.mem_cons_self p rest)
      · rw [if_neg hp]
        rcases ih mn with h | h
        · exact Or.inl (List.mem_cons_of_mem p h)
        · exact Or.inr h

/-- `firstIdxOf` succeeds on members. -/
theorem firstIdxOf_of_mem : ∀ (l : List String) (x : String), x ∈ l →
    ∃ i, firstIdxOf l x = some i := by
  intro l
  induction l with
  | nil => intro x hx; exact absurd hx (List.not_mem_nil x)
  | cons a as ih =>
      intro x hx
      rw [firstIdxOf]
      by_cases hax : a == x
      · exact ⟨0, by rw [if_pos hax]⟩
      · rw [if_neg hax]
        have hxas : x ∈ as := by
          rcases List.mem_cons.mp hx with h | h
          · exact absurd (by simp [h]) hax
          · exact h
        obtain ⟨i, hi⟩ := ih x hxas
        exact ⟨i + 1, by rw [hi]; rfl⟩

/-- A successful `firstIdxOf` returns a valid index holding the element. -/
theorem firstIdxOf_spec : ∀ (l : List String) (x : String) (i : Nat),
    firstIdxOf l x = some i → i < l.length ∧ l.getD i "" = x := by
  intro l
  induction l with
  | nil =>
      intro x i h
      rw [firstIdxOf] at h
      exact Option.noConfusion h
  | cons a as ih =>
      intro x i h
      rw [firstIdxOf] at h
      by_cases hax : a == x
      · rw [if_pos hax] at h
        injection h with h
        subst h
        exact ⟨by simp, by simpa using (eq_of_beq hax)⟩
      · rw [if_neg hax] at h
        cases h2 : firstIdxOf as x with
        | none => rw [h2] at h; exact absurd h (by simp)
        | some j =>
            rw [h2] at h
            simp only [Option.map_some'] at h
            injection h with h
            subst h
            obtain ⟨hlen, hget⟩ := ih x j h2
            exact ⟨by simpa using hlen, by simpa using hget⟩

/-- The shape the claim requires of a returned cycle: nonempty, closed, and
starting at an element no other cycle element is lexicographically below. -/
def CycleOK (c : List String) : Prop :=
  c ≠ [] ∧ c.headD "" = c.getLastD "" ∧ ∀ x ∈ c.dropLast, strLt x (c.headD "") = false

/-- The reduce-min of a nonempty circle is one of its elements. -/
theorem reduceMin_mem (circle : List String) (hne : circle ≠ []) :
    reduceMin circle ∈ circle := by
  unfold reduceMin
  rcases reduceMinAux_mem circle (circle.headD "") with h | h
  · exact h
  · rw [h]
    cases circle with
    | nil => exact absurd rfl hne
    | cons a as => exact List.mem_cons_self a as

/-- No circle element is lexicographically below its reduce-min. -/
theorem reduceMin_min (circle : List String) :
    ∀ x ∈ circle, strLt x (reduceMin circle) = false := by
  intro x hx
  unfold reduceMin
  exact reduceMinAux_min circle _ x hx

/-- `normalizeCircle` produces a cycle of the required shape from any
nonempty circle. -/
theorem normalizeCircle_ok (circle : List String) (hne : circle ≠ []) :
    CycleOK (normalizeCircle circle) := by
  obtain ⟨i, hi⟩ := firstIdxOf_of_mem circle (reduceMin circle) (reduceMin_mem circle hne)
  obtain ⟨hlen, hget⟩ := firstIdxOf_spec circle (reduceMin circle) i hi
  have hnorm : normalizeCircle circle =
      circle.drop i ++ circle.take i ++ [circle.getD i ""] := by
    unfold normalizeCircle
    simp only [hi, Option.getD_some]
  rw [hnorm]
  have hdrop : circle.drop i = circle[i] :: circle.drop (i + 1) := List.drop_eq_getElem_cons hlen
  have hgetd : circle.getD i "" = circle[i] := by simp [List.getD_eq_getElem, hlen]
  have hgi : circle[i] = reduceMin circle := by rw [← hgetd, hget]
  have hh : (circle.drop i ++ circle.take i ++ [circle.getD i ""]).headD "" = circle[i] := by
    rw [hdrop]
    simp only [List.cons_append, List.headD_cons]
  refine ⟨by simp, ?_, ?_⟩
  · have hlast : (circle.drop i ++ circle.take i ++ [circle.getD i ""]).getLastD ""
        = circle.getD i "" := by
      simp [List.getLastD_concat]
    rw [hh, hlast, hgetd]
  · rw [List.dropLast_concat]
    intro x hx
    have hxc : x ∈ circle := by
      rcases List.mem_append.mp hx with h | h
      · exact List.mem_of_mem_drop h
      · exact List.mem_of_mem_take h
    rw [hh, hgi]
    exact reduceMin_min circle x hxc

end AIFocus

namespace AIFocus

/-- The invariant of the `circles` accumulator: every stored cycle is
normalized, and the joined forms are pairwise distinct. -/
def CyclesInv (circles : List (List String)) : Prop :=
  (∀ c ∈ circles, CycleOK c) ∧ (circles.map joinedForm).Nodup

/-- `detectCircles` preserves the accumulator invariant: it only ever appends
a normalized cycle whose joined form is not yet present. -/
theorem detectCircles_inv (g : NodeMap) :
    ∀ (fuel : Nat) (current : String) (path visited : List String)
      (circles : List (List String)), CyclesInv circles →
      CyclesInv (detectCircles g fuel current path visited circles) := by
  intro fuel
  induction fuel with
  | zero =>
      intro current path visited circles h
      rw [detectCircles]
      exact h
  | succ fuel ih =>
      intro current path visited circles h
      rw [detectCircles]
      by_cases hv : current ∈ visited
      · rw [if_pos hv]
        cases hidx : firstIdxOf path current with
        | none => exact h
        | some idx =>
            dsimp only
            by_cases hdup : circles.any
                (fun c => joinedForm c == joinedForm (normalizeCircle (path.drop idx)))
            · rw [if_pos hdup]
              exact h
            · rw [if_neg hdup]
              have hne : path.drop idx ≠ [] := by
                have hlen := (firstIdxOf_spec path current idx hidx).1
                intro hempty
                rw [List.drop_eq_nil_iff] at hempty
                exact absurd hlen (not_lt.mpr hempty)
              have hok := normalizeCircle_ok (path.drop idx) hne
              constructor
              · intro c hc
                rcases List.mem_append.mp hc with h1 | h1
                · exact h.1 c h1
                · rw [List.mem_singleton.mp h1]
                  exact hok
              · rw [List.map_append]
                have hnotmem : joinedForm (normalizeCircle (path.drop idx)) ∉
                    circles.map joinedForm := by
                  intro hmem
                  obtain ⟨c, hc, hcj⟩ := List.mem_map.mp hmem
                  exact absurd (List.any_eq_true.mpr ⟨c, hc, by simp [hcj]⟩) hdup
                simp [List.nodup_append, h.2, hnotmem]
      · rw [if_neg hv]
        cases hg : mapGet g current with
        | none => exact h
        | some node =>
            dsimp only
            have hfold : ∀ (l : List String) (cs : List (List String)), CyclesInv cs →
                CyclesInv (l.foldl
                  (fun acc imp => detectCircles g fuel imp (path ++ [current])
                    (visited ++ [current]) acc) cs) := by
              intro l
              induction l with
              | nil => intro cs hcs; exact hcs
              | cons a as ihl =>
                  intro cs hcs
                  rw [List.foldl_cons]
                  exact ihl _ (ih a (path ++ [current]) (visited ++ [current]) cs hcs)
            exact hfold node.imports circles h

/-- The cycle list returned by `getCircularDependencies` satisfies the
accumulator invariant. -/
theorem getCircularDependencies_inv (g : NodeMap) : CyclesInv (getCircularDependencies g) := by
  unfold getCircularDependencies
  suffices h : ∀ (l : NodeMap) (cs : List (List String)), CyclesInv cs →
      CyclesInv (l.foldl (fun circles kv => detectCircles g (graphFuel g) kv.1 [] [] circles) cs) by
    exact h g [] ⟨by simp, by simp⟩
  intro l
  induction l with
  | nil => intro cs hcs; exact hcs
  | cons kv rest ihl =>
      intro cs hcs
      rw [List.foldl_cons]
      exact ihl _ (detectCircles_inv g (graphFuel g) kv.1 [] [] cs hcs)

/-- A file that imports itself (`/a.ts` importing `./a`). -/
def selfImportFile : FileAnalysisResult :=
  ⟨"/a.ts", "typescript", fun _ => none, [], ["./a"]⟩

/-- C5.  Every cycle returned by `getCircularDependencies` is closed
(`c[0] = c[last]`) and starts at a lexicographically smallest element; the
returned list has no duplicate cycles; and a file importing itself yields the
length-1 cycle `[p, p]`. -/
theorem claim_C5_cycle_normalization :
    (∀ (g : NodeMap) (c : List String), c ∈ getCircularDependencies g →
      c ≠ [] ∧ c.headD "" = c.getLastD "" ∧ ∀ x ∈ c.dropLast, strLt x (c.headD "") = false) ∧
    (∀ g : NodeMap, (getCircularDependencies g).Nodup) ∧
    getCircularDependencies (buildGraph [selfImportFile]) = [["/a.ts", "/a.ts"]] := by
  refine ⟨?_, ?_, by decide⟩
  · intro g c hc
    exact (getCircularDependencies_inv g).1 c hc
  · intro g
    exact List.Nodup.of_map joinedForm (getCircularDependencies_inv g).2

/-- Witness for C5: the self-import cycle `["/a.ts", "/a.ts"]` is indeed in
the normalized shape. -/
theorem claim_C5_witness :
    (["/a.ts", "/a.ts"] : List String) ≠ [] ∧
    (["/a.ts", "/a.ts"] : List String).headD "" =
      (["/a.ts", "/a.ts"] : List String).getLastD "" ∧
    ∀ x ∈ (["/a.ts", "/a.ts"] : List String).dropLast,
      strLt x ((["/a.ts", "/a.ts"] : List String).headD "") = false :=
  claim_C5_cycle_normalization.1 (buildGraph [selfImportFile]) ["/a.ts", "/a.ts"] (by decide)

end AIFocus

namespace AIFocus

/-! ## Stability and impact
(`calculateStability` in `src/analyzer/metrics/stability.ts`, `calculateImpact`
and `calculateAllRiskScores` in `src/analyzer/impact-analyzer.ts`) -/

/-- `StabilityMetric` (`src/analyzer/metrics/stability.ts`). -/
structure StabilityMetric : Type where
  ca : Nat
  ce : Nat
  stability : ℚ
deriving DecidableEq, Repr

/-- `calculateStability`: one record per graph node, `stability = ce/(ca+ce)`,
`0` for an isolated node (the `1` default is unreachable but kept). -/
def calculateStability (graph : NodeMap) : List (String × StabilityMetric) :=
  graph.map fun kv =>
    let ce := kv.2.imports.length
    let ca := kv.2.importedBy.length
    (kv.1,
      ⟨ca, ce,
        if ca + ce > 0 then (ce : ℚ) / ((ca : ℚ) + (ce : ℚ))
        else if ca = 0 ∧ ce = 0 then 0
        else 1⟩)

/-- The BFS loop of `calculateImpact` (lines 243-264), in state-passing form:
queue of `(path, depth)` pairs, `visited` set, `impacted` accumulator.  `fuel`
only forces termination; `calculateImpact` passes enough that it is never
exhausted. -/
def bfsImpact (g : NodeMap) : Nat → List (String × Nat) → List String →
    List (String × Nat) → List (String × Nat)
| 0, _, _, impacted => impacted
| _ + 1, [], _, impacted => impacted
| fuel + 1, (currentFile, depth) :: rest, visited, impacted =>
    if currentFile ∈ visited then bfsImpact g fuel rest visited impacted
    else
      let visited2 := visited ++ [currentFile]
      let impacted2 := if depth > 0 then impacted ++ [(currentFile, depth)] else impacted
      match mapGet g currentFile with
      | some node =>
          bfsImpact g fuel
            (rest ++ (node.importedBy.filter
                (fun importer => !(visited2.contains importer))).map
              (fun importer => (importer, depth + 1)))
            visited2 impacted2
      | none => bfsImpact g fuel rest visited2 impacted2

/-- Fuel bound for `bfsImpact`: every queue entry beyond the seed comes from
some node's `importedBy` list, and each node is expanded at most once. -/
def impactFuel (g : NodeMap) : Nat :=
  g.foldl (fun a kv => a + kv.2.importedBy.length) 0 + 2

/-- `calculateImpact` (lines 235-267): BFS over reverse edges from
`changedFile`, recording every reached node with positive depth. -/
def calculateImpact (g : NodeMap) (changedFile : String) : List (String × Nat) :=
  bfsImpact g (impactFuel g) [(changedFile, 0)] [] []

/-- The inner accumulation of `calculateAllRiskScores` (lines 283-297):
`totalRisk += (1 - stability) * (1 / (depth + 1))`, skipping nodes without a
stability record. -/
def riskOfFile (g : NodeMap) (sm : List (String × StabilityMetric)) (file : String) : ℚ :=
  (calculateImpact g file).foldl
    (fun totalRisk impactedNode =>
      match List.lookup impactedNode.1 sm with
      | some metric => totalRisk + (1 - metric.stability) * (1 / ((impactedNode.2 : ℚ) + 1))
      | none => totalRisk)
    0

/-- `calculateAllRiskScores` (lines 276-301): one risk score per graph key. -/
def calculateAllRiskScores (g : NodeMap)
    (sm : List (String × StabilityMetric)) : List (String × ℚ) :=
  g.map fun kv => (kv.1, riskOfFile g sm kv.1)

/-- Looking a key up in a map whose values are a function of the key. -/
theorem lookup_map_keyed {α : Type} (g : NodeMap) (h : String → α) (f : String)
    (hf : f ∈ g.map Prod.fst) :
    List.lookup f (g.map fun kv => (kv.1, h kv.1)) = some (h f) := by
  induction g with
  | nil => simp at hf
  | cons kv rest ih =>
      rcases eq_or_ne f kv.1 with he | he
      · subst he
        simp [List.lookup]
      · have hf2 : f ∈ rest.map Prod.fst := by
          rw [List.map_cons] at hf
          rcases List.mem_cons.mp hf with h1 | h1
          · exact absurd h1 he
          · exact h1
        simpa [List.lookup, List.map_cons, beq_false_of_ne he] using ih hf2

/-- The risk fold equals a mapped sum once every impacted node has a
stability record. -/
theorem riskFold_eq_sum (sm : List (String × StabilityMetric)) :
    ∀ (l : List (String × Nat)) (acc : ℚ),
      (∀ i ∈ l, (List.lookup i.1 sm).isSome) →
      l.foldl
        (fun totalRisk impactedNode =>
          match List.lookup impactedNode.1 sm with
          | some metric => totalRisk + (1 - metric.stability) * (1 / ((impactedNode.2 : ℚ) + 1))
          | none => totalRisk) acc =
      acc + (l.map (fun i => (1 - ((List.lookup i.1 sm).getD ⟨0, 0, 0⟩).stability) *
        (1 / ((i.2 : ℚ) + 1)))).sum := by
  intro l
  induction l with
  | nil => intro acc _; simp
  | cons i rest ih =>
      intro acc hl
      rw [List.foldl_cons, List.map_cons, List.sum_cons]
      obtain ⟨metric, hm⟩ := Option.isSome_iff_exists.mp (hl i (List.mem_cons_self i rest))
      rw [ih _ (fun j hj => hl j (List.mem_cons_of_mem i hj)), hm]
      simp only [Option.getD_some]
      ring

/-- A node with no importers yields an empty impact list: the BFS expands the
seed (depth 0, not recorded), enqueues nothing, and stops. -/
theorem calculateImpact_no_importers (g : NodeMap) (f : String) (nf : DependencyNode)
    (hv : mapGet g f = some nf) (hib : nf.importedBy = []) :
    calculateImpact g f = [] := by
  have hy : impactFuel g = (impactFuel g - 2) + 1 + 1 := by
    unfold impactFuel
    omega
  unfold calculateImpact
  rw [hy, bfsImpact, if_neg (List.not_mem_nil f)]
  dsimp only
  rw [hv]
  dsimp only
  rw [hib]
  simp only [List.filter_nil, List.map_nil, List.nil_append, List.append_nil]
  rw [bfsImpact]
  simp

/-- C4.  For every file `f` of the graph, `riskScores[f]` is the sum over the
nodes reached by the reverse-edge BFS with positive depth of
`(1 − stability(n)) · 1/(depth(n)+1)`; a file whose node has no importers
gets risk 0. -/
theorem claim_C4_risk_scores (g : NodeMap) (sm : List (String × StabilityMetric))
    (f : String) (hf : f ∈ g.map Prod.fst)
    (hsm : ∀ i ∈ calculateImpact g f, (List.lookup i.1 sm).isSome) :
    List.lookup f (calculateAllRiskScores g sm) =
      some (((calculateImpact g f).map
        (fun i => (1 - ((List.lookup i.1 sm).getD ⟨0, 0, 0⟩).stability) *
          (1 / ((i.2 : ℚ) + 1)))).sum) ∧
    (∀ nf, mapGet g f = some nf → nf.importedBy = [] →
      List.lookup f (calculateAllRiskScores g sm) = some 0) := by
  have h1 : List.lookup f (calculateAllRiskScores g sm) = some (riskOfFile g sm f) :=
    lookup_map_keyed g (riskOfFile g sm) f hf
  have h2 : riskOfFile g sm f = ((calculateImpact g f).map
      (fun i => (1 - ((List.lookup i.1 sm).getD ⟨0, 0, 0⟩).stability) *
        (1 / ((i.2 : ℚ) + 1)))).sum := by
    unfold riskOfFile
    rw [riskFold_eq_sum sm (calculateImpact g f) 0 hsm]
    simp
  constructor
  · rw [h1, h2]
  · intro nf hnf hib
    rw [h1, h2, calculateImpact_no_importers g f nf hnf hib]
    simp

/-- A single file with no imports (boundary case of §8). -/
def isolatedFile : FileAnalysisResult :=
  ⟨"/solo.ts", "typescript", fun _ => none, [], []⟩

/-- Witness for C4: the isolated file's risk score is 0. -/
theorem claim_C4_witness :
    List.lookup "/solo.ts" (calculateAllRiskScores (buildGraph [isolatedFile])
      (calculateStability (buildGraph [isolatedFile]))) = some 0 := by
  have hs : (mapGet (buildGraph [isolatedFile]) "/solo.ts").isSome := by decide
  obtain ⟨v, hv⟩ := Option.isSome_iff_exists.mp hs
  have hib : v.importedBy = [] := by
    have hd : ((mapGet (buildGraph [isolatedFile]) "/solo.ts").getD
        ⟨"", [], [], none⟩).importedBy = [] := by decide
    rw [hv] at hd
    simpa using hd
  exact (claim_C4_risk_scores (buildGraph [isolatedFile])
    (calculateStability (buildGraph [isolatedFile])) "/solo.ts" (by decide) (by decide)).2
    v hv hib

end AIFocus

namespace AIFocus

/-! ## Incremental analysis
(`Analyzer.analyzeFiles` in `src/analyzer/analyzer.ts`, lines 404-460, and
`Orchestrator.runIncremental` in `src/orchestrator/index.ts`, lines 217-252)

File paths are modelled as already-absolute strings, so the `path.resolve`
normalization the source applies to them is the identity.  The result type is
kept abstract (`α` with a `pathOf` projection): the embedding never rebuilds a
retained element, so equality at `α` captures JavaScript reference equality.
`analyzeFile` returns `Option α` (`none` models a thrown, caught-and-logged
analysis error), and `existsFS` models `fs.existsSync`. -/

/-- `Set.prototype.add`: append unless present (JS sets iterate in insertion
order). -/
def setInsert (l : List String) (p : String) : List String :=
  if p ∈ l then l else l ++ [p]

/-- `new Set(ps)`, as an insertion-ordered duplicate-free list. -/
def setOfList (ps : List String) : List String := ps.foldl setInsert []

/-- The `impactedSet` of `Analyzer.analyzeFiles` (line 408). -/
def impactedSetOf (filePaths : List String) : List String := setOfList filePaths

/-- Step 1 of `analyzeFiles` (lines 411-413): retain the prior results whose
paths are not in the impacted set. -/
def retainedOf {α : Type} (pathOf : α → String) (filePaths : List String)
    (prevFiles : List α) : List α :=
  prevFiles.filter fun res => !((impactedSetOf filePaths).contains (pathOf res))

/-- Step 2 of `analyzeFiles` (lines 416-421): the paths the loop re-analyzes
are exactly the impacted ones that still exist on disk. -/
def reanalyzedPathsOf (existsFS : String → Bool) (filePaths : List String) : List String :=
  (impactedSetOf filePaths).filter existsFS

/-- Steps 2-3 of `analyzeFiles` (lines 416-430): the `files` component of the
new snapshot, `retained ++ reAnalyzed`, where a failed analysis is skipped. -/
def analyzeFilesMerged {α : Type} (pathOf : α → String) (analyzeFile : String → Option α)
    (existsFS : String → Bool) (filePaths : List String) (prevFiles : List α) : List α :=
  retainedOf pathOf filePaths prevFiles ++
    (reanalyzedPathsOf existsFS filePaths).filterMap analyzeFile

/-- The loop body of `runIncremental` (lines 227-234): add the 1-hop
neighbors of a changed path that is a node of the prior graph. -/
def addNeighbors (g : NodeMap) (acc : List String) (filePath : String) : List String :=
  match mapGet g filePath with
  | some node => node.importedBy.foldl setInsert (node.imports.foldl setInsert acc)
  | none => acc

/-- Step 1 of `Orchestrator.runIncremental` (lines 223-234): the impacted set
is the changed files plus, per changed path with a node in the prior graph,
its `imports` and `importedBy` neighbors. -/
def runIncrementalImpacted (changedFiles : List String) (graph : Option NodeMap) :
    List String :=
  let impacted := setOfList changedFiles
  match graph with
  | none => impacted
  | some g => changedFiles.foldl (addNeighbors g) impacted

/-- `runIncremental` then calls `analyzer.analyzeFiles(Array.from(impacted),
prevResult)` (line 241): the files of the resulting snapshot. -/
def runIncrementalFiles {α : Type} (pathOf : α → String) (analyzeFile : String → Option α)
    (existsFS : String → Bool) (changedFiles : List String) (prevFiles : List α)
    (graph : Option NodeMap) : List α :=
  analyzeFilesMerged pathOf analyzeFile existsFS
    (runIncrementalImpacted changedFiles graph) prevFiles

/-- Membership in a `setInsert`. -/
theorem setInsert_mem (l : List String) (q p : String) :
    p ∈ setInsert l q ↔ p ∈ l ∨ p = q := by
  unfold setInsert
  by_cases h : q ∈ l
  · rw [if_pos h]
    constructor
    · exact Or.inl
    · intro hp
      rcases hp with hp | hp
      · exact hp
      · rw [hp]; exact h
  · rw [if_neg h]
    simp

/-- Membership in a fold of `setInsert`s. -/
theorem foldl_setInsert_mem (l : List String) :
    ∀ (acc : List String) (p : String), p ∈ l.foldl setInsert acc ↔ p ∈ acc ∨ p ∈ l := by
  induction l with
  | nil => intro acc p; simp
  | cons q rest ih =>
      intro acc p
      rw [List.foldl_cons, ih, setInsert_mem]
      rw [List.mem_cons]
      tauto

/-- Membership in `new Set(ps)` is membership in `ps`. -/
theorem setOfList_mem (ps : List String) (p : String) : p ∈ setOfList ps ↔ p ∈ ps := by
  unfold setOfList
  rw [foldl_setInsert_mem]
  simp

/-- Membership after one `addNeighbors` step. -/
theorem addNeighbors_mem (g : NodeMap) (acc : List String) (q p : String) :
    p ∈ addNeighbors g acc q ↔
      p ∈ acc ∨ ∃ n, mapGet g q = some n ∧ (p ∈ n.imports ∨ p ∈ n.importedBy) := by
  unfold addNeighbors
  cases hq : mapGet g q with
  | none => simp
  | some n =>
      rw [foldl_setInsert_mem, foldl_setInsert_mem]
      simp only [Option.some_inj]
      constructor
      · intro h
        rcases h with (h | h) | h
        · exact Or.inl h
        · exact Or.inr ⟨n, rfl, Or.inl h⟩
        · exact Or.inr ⟨n, rfl, Or.inr h⟩
      · intro h
        rcases h with h | ⟨n2, hn2, h⟩
        · exact Or.inl (Or.inl h)
        · cases hn2
          rcases h with h | h
          · exact Or.inl (Or.inr h)
          · exact Or.inr h

/-- Membership in the neighbor-adding fold. -/
theorem foldl_addNeighbors_mem (g : NodeMap) (l : List String) :
    ∀ (acc : List String) (p : String),
      p ∈ l.foldl (addNeighbors g) acc ↔
        p ∈ acc ∨ ∃ q, q ∈ l ∧ ∃ n, mapGet g q = some n ∧
          (p ∈ n.imports ∨ p ∈ n.importedBy) := by
  induction l with
  | nil => intro acc p; simp
  | cons q rest ih =>
      intro acc p
      rw [List.foldl_cons, ih, addNeighbors_mem]
      constructor
      · intro h
        rcases h with (h | ⟨n, hn, hm⟩) | ⟨r, hr, hrest⟩
        · exact Or.inl h
        · exact Or.inr ⟨q, List.mem_cons_self q rest, n, hn, hm⟩
        · exact Or.inr ⟨r, List.mem_cons_of_mem q hr, hrest⟩
      · intro h
        rcases h with h | ⟨r, hr, hrest⟩
        · exact Or.inl (Or.inl h)
        · rcases List.mem_cons.mp hr with he | he
          · subst he
            exact Or.inl (Or.inr hrest)
          · exact Or.inr ⟨r, he, hrest⟩

/-- C2.  The incremental impacted set is exactly the changed paths plus the
1-hop neighbors (imports and importedBy) of changed paths present in the
prior graph, and the subsequently re-analyzed paths are exactly the impacted
paths that still exist. -/
theorem claim_C2_impacted_set (changedFiles : List String) (g : NodeMap)
    (existsFS : String → Bool) (p : String) :
    (p ∈ runIncrementalImpacted changedFiles (some g) ↔
      p ∈ changedFiles ∨ ∃ q, q ∈ changedFiles ∧ ∃ n, mapGet g q = some n ∧
        (p ∈ n.imports ∨ p ∈ n.importedBy)) ∧
    (p ∈ reanalyzedPathsOf existsFS (runIncrementalImpacted changedFiles (some g)) ↔
      p ∈ runIncrementalImpacted changedFiles (some g) ∧ existsFS p = true) := by
  constructor
  · unfold runIncrementalImpacted
    rw [foldl_addNeighbors_mem, setOfList_mem]
  · unfold reanalyzedPathsOf impactedSetOf
    rw [List.mem_filter, setOfList_mem]

/-- Witness for C2 on the two-file cycle: changing `a.ts` pulls in `b.ts`,
and `b.ts` is re-analyzed when it exists. -/
theorem claim_C2_witness :
    "/p/b.ts" ∈ runIncrementalImpacted ["/p/a.ts"]
      (some (buildGraph [cycleFileA, cycleFileB])) ∧
    "/p/b.ts" ∈ reanalyzedPathsOf (fun _ => true)
      (runIncrementalImpacted ["/p/a.ts"] (some (buildGraph [cycleFileA, cycleFileB]))) := by
  have hs : (mapGet (buildGraph [cycleFileA, cycleFileB]) "/p/a.ts").isSome := by decide
  obtain ⟨v, hv⟩ := Option.isSome_iff_exists.mp hs
  have hmem : "/p/b.ts" ∈ v.imports := by
    have hd : "/p/b.ts" ∈ ((mapGet (buildGraph [cycleFileA, cycleFileB]) "/p/a.ts").getD
        ⟨"", [], [], none⟩).imports := by decide
    rw [hv] at hd
    simpa using hd
  have h1 : "/p/b.ts" ∈ runIncrementalImpacted ["/p/a.ts"]
      (some (buildGraph [cycleFileA, cycleFileB])) :=
    (claim_C2_impacted_set ["/p/a.ts"] (buildGraph [cycleFileA, cycleFileB])
      (fun _ => true) "/p/b.ts").1.mpr
      (Or.inr ⟨"/p/a.ts", by simp, v, hv, Or.inl hmem⟩)
  exact ⟨h1, (claim_C2_impacted_set ["/p/a.ts"] (buildGraph [cycleFileA, cycleFileB])
    (fun _ => true) "/p/b.ts").2.mpr ⟨h1, rfl⟩⟩

/-- C1.  Retention by identity: for a path `p` outside the impacted set, the
results with path `p` in the merged snapshot are exactly — as values of the
abstract result type, i.e. by reference — the results with path `p` in
`prev.files`. -/
theorem claim_C1_retention {α : Type} (pathOf : α → String) (analyzeFile : String → Option α)
    (existsFS : String → Bool) (filePaths : List String) (prevFiles : List α) (p : String)
    (hana : ∀ q a, analyzeFile q = some a → pathOf a = q)
    (hp : p ∉ impactedSetOf filePaths) :
    (analyzeFilesMerged pathOf analyzeFile existsFS filePaths prevFiles).filter
        (fun r => pathOf r == p) =
      prevFiles.filter (fun r => pathOf r == p) := by
  unfold analyzeFilesMerged
  rw [List.filter_append]
  have hB : ((reanalyzedPathsOf existsFS filePaths).filterMap analyzeFile).filter
      (fun r => pathOf r == p) = [] := by
    rw [List.filter_eq_nil_iff]
    intro a ha
    obtain ⟨q, hq, hqa⟩ := List.mem_filterMap.mp ha
    have hpa : pathOf a = q := hana q a hqa
    have hqi : q ∈ impactedSetOf filePaths :=
      (List.mem_filter.mp hq).1
    have hne : pathOf a ≠ p := by
      intro he
      rw [hpa] at he
      rw [he] at hqi
      exact hp hqi
    simpa using hne
  rw [hB, List.append_nil]
  unfold retainedOf
  rw [List.filter_filter]
  apply List.filter_congr
  intro r _
  by_cases hr : pathOf r = p
  · have : ¬ ((impactedSetOf filePaths).contains (pathOf r)) := by
      rw [hr]
      simpa using hp
    simp [hr, this, hp]
  · simp [hr]

/-- Witness for C1: changing `/b.ts` retains the `/a.ts` entry identically. -/
theorem claim_C1_witness :
    ("/a.ts" ∉ impactedSetOf ["/b.ts"]) ∧
    (analyzeFilesMerged Prod.fst (fun q => some (q, 100)) (fun _ => true) ["/b.ts"]
        [(("/a.ts" : String), (0 : Nat)), ("/b.ts", 1)]).filter (fun r => r.1 == "/a.ts") =
      [(("/a.ts" : String), (0 : Nat)), ("/b.ts", 1)].filter (fun r => r.1 == "/a.ts") :=
  ⟨by decide,
   claim_C1_retention Prod.fst (fun q => some (q, 100)) (fun _ => true) ["/b.ts"]
     [("/a.ts", 0), ("/b.ts", 1)] "/a.ts" (fun q a h => by cases h; rfl) (by decide)⟩

end AIFocus
